import Mathlib

/-!
# Verification of the toy proof-of-work blockchain (`demo_mining.py`)

Shallow embedding of the single source file `src/demo_mining.py`:

* SHA-256 (the behaviour of Python's `hashlib.sha256(...).hexdigest()`),
  implemented over `Nat` bytes/words with explicit `% 2^32` arithmetic so
  that everything is executable and kernel-evaluable;
* `Block` with `compute_hash` and `mine_block` (the unbounded Python
  `while True` loop becomes the fuel-indexed `mineFuel`, returning `none`
  when the fuel runs out);
* `Blockchain` with `create_genesis_block`, `get_latest_block`,
  `add_block` and `is_chain_valid`.  Python's `print` diagnostics inside
  `is_chain_valid` are embedded as an explicit message trace: the function
  returns the pair (returned boolean, list of printed lines).

Python's dynamic values are embedded as: `int` fields as `Int` (the nonce,
which starts at 0 and is only incremented, as `Nat`), `None`-or-string
fields (`hash`, `prev_hash`) as `Option String` with `str(None) = "None"`,
and the `time.time()` float timestamp by the string that Python's `str`
renders it to (only `str(self.timestamp)` is ever consumed by the code).
-/

set_option maxRecDepth 100000

/-! ## SHA-256 over `Nat` bytes -/

/-- The SHA-256 word modulus, 2^32. -/
def M32 : Nat := 4294967296

/-- Right rotation of a 32-bit word (input assumed `< 2^32`). -/
def rotr32 (x n : Nat) : Nat := (x >>> n) ||| ((x <<< (32 - n)) % M32)

/-- Bitwise complement of a 32-bit word (input assumed `< 2^32`). -/
def not32 (x : Nat) : Nat := x ^^^ 4294967295

/-- SHA-256 `Ch` function. -/
def shCh (e f g : Nat) : Nat := (e &&& f) ^^^ (not32 e &&& g)

/-- SHA-256 `Maj` function. -/
def shMaj (a b c : Nat) : Nat := (a &&& b) ^^^ (a &&& c) ^^^ (b &&& c)

/-- SHA-256 Σ₀. -/
def bigSigma0 (x : Nat) : Nat := rotr32 x 2 ^^^ rotr32 x 13 ^^^ rotr32 x 22

/-- SHA-256 Σ₁. -/
def bigSigma1 (x : Nat) : Nat := rotr32 x 6 ^^^ rotr32 x 11 ^^^ rotr32 x 25

/-- SHA-256 σ₀. -/
def smallSigma0 (x : Nat) : Nat := rotr32 x 7 ^^^ rotr32 x 18 ^^^ (x >>> 3)

/-- SHA-256 σ₁. -/
def smallSigma1 (x : Nat) : Nat := rotr32 x 17 ^^^ rotr32 x 19 ^^^ (x >>> 10)

/-- The 64 SHA-256 round constants (FIPS 180-4, written in decimal). -/
def shK : List Nat :=
  [1116352408, 1899447441, 3049323471, 3921009573,
   961987163, 1508970993, 2453635748, 2870763221,
   3624381080, 310598401, 607225278, 1426881987,
   1925078388, 2162078206, 2614888103, 3248222580,
   3835390401, 4022224774, 264347078, 604807628,
   770255983, 1249150122, 1555081692, 1996064986,
   2554220882, 2821834349, 2952996808, 3210313671,
   3336571891, 3584528711, 113926993, 338241895,
   666307205, 773529912, 1294757372, 1396182291,
   1695183700, 1986661051, 2177026350, 2456956037,
   2730485921, 2820302411, 3259730800, 3345764771,
   3516065817, 3600352804, 4094571909, 275423344,
   430227734, 506948616, 659060556, 883997877,
   958139571, 1322822218, 1537002063, 1747873779,
   1955562222, 2024104815, 2227730452, 2361852424,
   2428436474, 2756734187, 3204031479, 3329325298]

/-- SHA-256 working state: eight 32-bit words. -/
structure SHState where
  a : Nat
  b : Nat
  c : Nat
  d : Nat
  e : Nat
  f : Nat
  g : Nat
  h : Nat
  deriving Repr, DecidableEq

/-- The SHA-256 initial hash value (FIPS 180-4, written in decimal). -/
def initH : SHState :=
  { a := 1779033703, b := 3144134277, c := 1013904242, d := 2773480762,
    e := 1359893119, f := 2600822924, g := 528734635, h := 1541459225 }

/-- Four big-endian bytes of a 32-bit word. -/
def be32 (w : Nat) : List Nat :=
  [(w >>> 24) % 256, (w >>> 16) % 256, (w >>> 8) % 256, w % 256]

/-- Eight big-endian bytes of a 64-bit value (the padded bit length). -/
def be64 (n : Nat) : List Nat :=
  [(n >>> 56) % 256, (n >>> 48) % 256, (n >>> 40) % 256, (n >>> 32) % 256,
   (n >>> 24) % 256, (n >>> 16) % 256, (n >>> 8) % 256, n % 256]

/-- Pack a list of bytes into big-endian 32-bit words (4 bytes per word). -/
def bytesToWords : List Nat → List Nat
  | b0 :: b1 :: b2 :: b3 :: rest =>
      ((b0 <<< 24) ||| (b1 <<< 16) ||| (b2 <<< 8) ||| b3) :: bytesToWords rest
  | _ => []

/-- Extend the message schedule.  `ws` holds the schedule so far in
reverse order (most recent word first); `n` is the number of words still
to produce.  `ws.getD 1` is `w[t-2]`, `getD 6` is `w[t-7]`, `getD 14` is
`w[t-15]` and `getD 15` is `w[t-16]`. -/
def extendW : List Nat → Nat → List Nat
  | ws, 0 => ws
  | ws, n + 1 =>
      extendW
        (((smallSigma1 (ws.getD 1 0) + ws.getD 6 0 +
           smallSigma0 (ws.getD 14 0) + ws.getD 15 0) % M32) :: ws) n

/-- One SHA-256 compression round; `kw` is the pair (round constant,
schedule word). -/
def roundStep (st : SHState) (kw : Nat × Nat) : SHState :=
  let t1 := (st.h + bigSigma1 st.e + shCh st.e st.f st.g + kw.1 + kw.2) % M32
  let t2 := (bigSigma0 st.a + shMaj st.a st.b st.c) % M32
  { a := (t1 + t2) % M32, b := st.a, c := st.b, d := st.c,
    e := (st.d + t1) % M32, f := st.e, g := st.f, h := st.g }

/-- Compress one 64-byte chunk into the running state. -/
def compressChunk (st : SHState) (chunk : List Nat) : SHState :=
  let w := (extendW (bytesToWords chunk).reverse 48).reverse
  let st' := (shK.zip w).foldl roundStep st
  { a := (st.a + st'.a) % M32, b := (st.b + st'.b) % M32,
    c := (st.c + st'.c) % M32, d := (st.d + st'.d) % M32,
    e := (st.e + st'.e) % M32, f := (st.f + st'.f) % M32,
    g := (st.g + st'.g) % M32, h := (st.h + st'.h) % M32 }

/-- SHA-256 padding: append `0x80`, zero bytes up to 56 mod 64, then the
original bit length as 8 big-endian bytes. -/
def padMessage (msg : List Nat) : List Nat :=
  msg ++ 128 :: List.replicate ((119 - msg.length % 64) % 64) 0
      ++ be64 ((msg.length * 8) % 18446744073709551616)

/-- Split a list into `n` consecutive 64-byte chunks. -/
def chunksN : Nat → List Nat → List (List Nat)
  | 0, _ => []
  | n + 1, l => l.take 64 :: chunksN n (l.drop 64)

/-- Serialize the final state: the 32 digest bytes. -/
def digestBytes (st : SHState) : List Nat :=
  be32 st.a ++ be32 st.b ++ be32 st.c ++ be32 st.d ++
  be32 st.e ++ be32 st.f ++ be32 st.g ++ be32 st.h

/-- SHA-256 of a byte list: 32 digest bytes. -/
def sha256bytes (msg : List Nat) : List Nat :=
  digestBytes
    ((chunksN ((padMessage msg).length / 64) (padMessage msg)).foldl
      compressChunk initH)

/-- Lowercase hexadecimal digit for `n < 16` (`'0'`–`'9'`, `'a'`–`'f'`). -/
def hexDigit (n : Nat) : Char :=
  if n < 10 then Char.ofNat (48 + n) else Char.ofNat (87 + n)

/-- Two lowercase hex characters per byte, in order. -/
def bytesToHex : List Nat → List Char
  | [] => []
  | b :: rest => hexDigit (b / 16) :: hexDigit (b % 16) :: bytesToHex rest

/-- UTF-8 encoding of a single character (as byte values). -/
def utf8Char (c : Char) : List Nat :=
  let n := c.toNat
  if n < 128 then [n]
  else if n < 2048 then [192 + n / 64, 128 + n % 64]
  else if n < 65536 then [224 + n / 4096, 128 + (n / 64) % 64, 128 + n % 64]
  else [240 + n / 262144, 128 + (n / 4096) % 64, 128 + (n / 64) % 64, 128 + n % 64]

/-- UTF-8 encoding of a character list. -/
def utf8Encode : List Char → List Nat
  | [] => []
  | c :: cs => utf8Char c ++ utf8Encode cs

/-- Python's `hashlib.sha256(s.encode('utf-8')).hexdigest()`: UTF-8 encode, hash
with SHA-256, render the 32 digest bytes as 64 lowercase hex characters. -/
def sha256hex (s : String) : String :=
  ⟨bytesToHex (sha256bytes (utf8Encode s.data))⟩

/-! ## `Block` (`demo_mining.py`, class `Block`) -/

/-- Python's `str` of a `None`-or-string value (`str(None) = "None"`). -/
def pyStr : Option String → String
  | some s => s
  | none => "None"

/-- A block, as in `Block.__init__`.  `timestamp` stands for the string
Python's `str` renders `time.time()` to; `hash` is `None` until mined. -/
structure Block where
  index : Int
  timestamp : String
  data : String
  prev_hash : Option String
  nonce : Nat
  difficulty : Int
  hash : Option String
  deriving Repr, DecidableEq, Inhabited

/-- Constructor `Block.__init__(index, data, prev_hash, difficulty)`: stores the
arguments unchecked, captures the timestamp, sets `nonce = 0` and
`hash = None`.  The timestamp is passed in explicitly since `time.time()`
is an outside input. -/
def blockInit (index : Int) (data : String) (prev_hash : Option String)
    (difficulty : Int) (timestamp : String) : Block :=
  { index := index, timestamp := timestamp, data := data,
    prev_hash := prev_hash, nonce := 0, difficulty := difficulty,
    hash := none }

/-- The concatenated string hashed by `Block.compute_hash`:
`str(index) + str(timestamp) + str(data) + str(prev_hash) + str(nonce)`. -/
def blockString (b : Block) : String :=
  toString b.index ++ b.timestamp ++ b.data ++ pyStr b.prev_hash ++
    toString b.nonce

/-- Method `Block.compute_hash`: SHA-256 hex digest of the UTF-8 encoding of the
block string. -/
def compute_hash (b : Block) : String :=
  sha256hex (blockString b)

/-- The target string `'0' * difficulty` (empty for non-positive `difficulty`,
as in Python). -/
def targetZeros (d : Int) : String :=
  ⟨List.replicate d.toNat '0'⟩

/-- Python's `s.startswith(pre)`. -/
def pyStartswith (s pre : String) : Bool :=
  pre.data.isPrefixOf s.data

/-- Method `Block.mine_block`, with explicit fuel for the unbounded `while True`
loop: each iteration sets `hash` to the recomputed digest, stops when the
digest starts with `'0' * difficulty`, otherwise increments `nonce`.
Returns `none` when the fuel is exhausted before a digest meets the
target. -/
def mineFuel : Nat → Block → Option Block
  | 0, _ => none
  | fuel + 1, b =>
      if pyStartswith (compute_hash b) (targetZeros b.difficulty) then
        some { b with hash := some (compute_hash b) }
      else
        mineFuel fuel { b with hash := some (compute_hash b), nonce := b.nonce + 1 }

/-! ## `Blockchain` (`demo_mining.py`, class `Blockchain`) -/

/-- A blockchain: the list of blocks and the chain-level difficulty. -/
structure Blockchain where
  chain : List Block
  difficulty : Int
  deriving Repr, DecidableEq, Inhabited

/-- Method `Blockchain.create_genesis_block`: a block with `index = 0`,
`data = "Genesis Block"`, `prev_hash = '0'` and the chain's difficulty,
mined on construction. -/
def create_genesis_block (fuel : Nat) (difficulty : Int) (ts : String) :
    Option Block :=
  mineFuel fuel (blockInit 0 "Genesis Block" (some "0") difficulty ts)

/-- Constructor `Blockchain.__init__(difficulty)`: a one-element chain holding the
mined genesis block. -/
def blockchainInit (fuel : Nat) (difficulty : Int) (ts : String) :
    Option Blockchain :=
  (create_genesis_block fuel difficulty ts).map
    (fun g => { chain := [g], difficulty := difficulty })

/-- Method `Blockchain.get_latest_block` (`self.chain[-1]`; `none` models the
`IndexError` on an empty list, which never occurs after `__init__`). -/
def get_latest_block (bc : Blockchain) : Option Block :=
  bc.chain.getLast?

/-- Method `Blockchain.add_block(new_block)`: set the new block's `prev_hash` to
the latest block's `hash`, mine it, append it. -/
def add_block (fuel : Nat) (bc : Blockchain) (new_block : Block) :
    Option Blockchain :=
  match get_latest_block bc with
  | none => none
  | some last =>
      (mineFuel fuel { new_block with prev_hash := last.hash }).map
        (fun mined => { bc with chain := bc.chain ++ [mined] })

/-- The loop body of `Blockchain.is_chain_valid`, walking the chain from
position 1 (`prev` is the predecessor of the head of the remaining list).
Returns the pair (returned boolean, printed lines).  Python re-reads
`current_block.hash` for the difficulty check; at that point the first
check has established `cur.hash = some recalculated`, so the check is
performed on `recalculated`. -/
def validateFrom : Block → List Block → Bool × List String
  | _, [] => (true, [])
  | prev, cur :: rest =>
      let recalculated := compute_hash cur
      if cur.hash ≠ some recalculated then
        (false, ["Block #" ++ toString cur.index ++ " hash mismatch!"])
      else if cur.prev_hash ≠ prev.hash then
        (false, ["Block #" ++ toString cur.index ++ " prev_hash mismatch!"])
      else if ¬ pyStartswith recalculated (targetZeros cur.difficulty) then
        (false, ["Block #" ++ toString cur.index ++
          " does not meet difficulty requirement!"])
      else validateFrom cur rest

/-- Method `Blockchain.is_chain_valid`: walk `i = 1 .. n-1`; at each position
recompute the digest and compare with the stored `hash`, then check the
`prev_hash` link, then the difficulty target; return `False` (printing
one diagnostic line) at the first failure, `True` otherwise.  The first
component is the Python return value, the second the console output. -/
def is_chain_valid (bc : Blockchain) : Bool × List String :=
  match bc.chain with
  | [] => (true, [])
  | first :: rest => validateFrom first rest

/-- Run a list of `add_block` calls in order. -/
def addAll (fuel : Nat) : Blockchain → List Block → Option Blockchain
  | bc, [] => some bc
  | bc, nb :: rest =>
      match add_block fuel bc nb with
      | none => none
      | some bc' => addAll fuel bc' rest

/-- Build a chain exactly as the demo does: `Blockchain(difficulty)`
followed by `add_block` for each prepared block. -/
def buildChain (fuel : Nat) (difficulty : Int) (ts : String)
    (adds : List Block) : Option Blockchain :=
  match blockchainInit fuel difficulty ts with
  | none => none
  | some bc => addAll fuel bc adds

/-! ## Failure categories (spec §4.4 / §7), read off the validator -/

/-- The three failure categories named by the spec. -/
inductive FailCat where
  | hash_mismatch
  | link_mismatch
  | difficulty_unmet
  deriving Repr, DecidableEq

/-- The three checks `is_chain_valid` performs at one position, in the
source's order: digest equality, then linkage, then difficulty. -/
def checkAt (prev cur : Block) : Option FailCat :=
  let recalculated := compute_hash cur
  if cur.hash ≠ some recalculated then some .hash_mismatch
  else if cur.prev_hash ≠ prev.hash then some .link_mismatch
  else if ¬ pyStartswith recalculated (targetZeros cur.difficulty) then
    some .difficulty_unmet
  else none

/-- First failing position (0-based within the tail) and its category. -/
def firstFailP : Block → List Block → Option (Nat × FailCat)
  | _, [] => none
  | prev, cur :: rest =>
      match checkAt prev cur with
      | some cat => some (0, cat)
      | none => (firstFailP cur rest).map (fun p => (p.1 + 1, p.2))

/-- First failing index of a chain (indices as the spec counts them:
the walk starts at 1; a chain of length ≤ 1 has no failure). -/
def firstFailure : List Block → Option (Nat × FailCat)
  | [] => none
  | first :: rest => (firstFailP first rest).map (fun p => (p.1 + 1, p.2))

/-- The diagnostic line `is_chain_valid` prints for a failure category at
a given block. -/
def failMsg (cat : FailCat) (b : Block) : String :=
  match cat with
  | .hash_mismatch => "Block #" ++ toString b.index ++ " hash mismatch!"
  | .link_mismatch => "Block #" ++ toString b.index ++ " prev_hash mismatch!"
  | .difficulty_unmet =>
      "Block #" ++ toString b.index ++ " does not meet difficulty requirement!"

/-- The predecessor `is_chain_valid` compares against at position `j` of
the walked tail `l` (whose own predecessor is `prev`). -/
def prevAt (prev : Block) (l : List Block) (j : Nat) : Block :=
  if j = 0 then prev else l.getD (j - 1) default

/-! ## Mining lemmas -/

/-- The digest `compute_hash` does not read the `hash` field. -/
theorem compute_hash_set_hash (b : Block) (h' : Option String) :
    compute_hash { b with hash := h' } = compute_hash b := rfl

/-- Canonical description of a successful `mineFuel` run: the result is
the input with some final nonce `n ≥` the starting nonce and with `hash`
set to the digest at `n`; the digest at `n` meets the target and the
digest at every tried nonce below `n` does not. -/
theorem mineFuel_spec : ∀ (fuel : Nat) (b b' : Block), mineFuel fuel b = some b' →
    ∃ n : Nat, b.nonce ≤ n
      ∧ b' = { b with nonce := n, hash := some (compute_hash { b with nonce := n }) }
      ∧ pyStartswith (compute_hash { b with nonce := n }) (targetZeros b.difficulty) = true
      ∧ ∀ m : Nat, b.nonce ≤ m → m < n →
          pyStartswith (compute_hash { b with nonce := m }) (targetZeros b.difficulty) = false := by
  intro fuel
  induction fuel with
  | zero => intro b b' h; simp [mineFuel] at h
  | succ fuel ih =>
    intro b b' h
    rw [mineFuel] at h
    by_cases hc : pyStartswith (compute_hash b) (targetZeros b.difficulty) = true
    · rw [if_pos hc] at h
      refine ⟨b.nonce, Nat.le_refl _, ?_, ?_, ?_⟩
      · exact (Option.some.inj h).symm
      · exact hc
      · intro m h1 h2; omega
    · rw [if_neg hc] at h
      obtain ⟨n, hn1, hn2, hn3, hn4⟩ :=
        ih { b with hash := some (compute_hash b), nonce := b.nonce + 1 } b' h
      refine ⟨n, ?_, ?_, ?_, ?_⟩
      · exact Nat.le_of_succ_le hn1
      · exact hn2
      · exact hn3
      · intro m hm1 hm2
        rcases Nat.eq_or_lt_of_le hm1 with heq | hlt
        · subst heq
          simpa using hc
        · exact hn4 m hlt hm2

/-- Projections of a successful `mineFuel` run: the mined block carries a
hash consistent with its own final fields, meets its difficulty target,
and keeps `index`, `timestamp`, `data`, `prev_hash` and `difficulty`. -/
theorem mineFuel_sound (fuel : Nat) (b b' : Block) (h : mineFuel fuel b = some b') :
    b'.hash = some (compute_hash b')
    ∧ pyStartswith (compute_hash b') (targetZeros b'.difficulty) = true
    ∧ b'.index = b.index ∧ b'.timestamp = b.timestamp ∧ b'.data = b.data
    ∧ b'.prev_hash = b.prev_hash ∧ b'.difficulty = b.difficulty := by
  obtain ⟨n, _, rfl, hs, _⟩ := mineFuel_spec fuel b b' h
  exact ⟨rfl, hs, rfl, rfl, rfl, rfl, rfl⟩

/-! ## Small list facts (stated here to keep the development
self-contained) -/

theorem list_getD_set_self {α : Type} (d : α) (l : List α) :
    ∀ (k : Nat) (a : α), k < l.length → (l.set k a).getD k d = a := by
  induction l with
  | nil => intro k a h; simp at h
  | cons x xs ih =>
    intro k a h
    cases k with
    | zero => rfl
    | succ k => exact ih k a (by simpa using h)

theorem list_getD_set_ne {α : Type} (d : α) (l : List α) :
    ∀ (k m : Nat) (a : α), m ≠ k → (l.set k a).getD m d = l.getD m d := by
  induction l with
  | nil => intro k m a _; cases k <;> rfl
  | cons x xs ih =>
    intro k m a hne
    cases k with
    | zero => cases m with
      | zero => exact absurd rfl hne
      | succ m => rfl
    | succ k =>
      cases m with
      | zero => rfl
      | succ m => exact ih k m a (fun he => hne (by omega))

theorem list_getLastD_concat {α : Type} (d a : α) (l : List α) :
    (l ++ [a]).getLastD d = a := by
  rw [List.getLastD_eq_getLast?, List.getLast?_concat]
  rfl

theorem list_getLast?_cons_eq_getLastD (x : Block) (l : List Block) :
    (x :: l).getLast? = some (l.getLastD x) := by
  induction l generalizing x with
  | nil => rfl
  | cons y ys ih => rw [List.getLast?_cons_cons, ih y, List.getLastD_cons]

/-! ## Validator lemmas -/

/-- One step of the walk, phrased through `checkAt`. -/
theorem validateFrom_cons (prev cur : Block) (rest : List Block) :
    validateFrom prev (cur :: rest) =
      match checkAt prev cur with
      | some cat => (false, [failMsg cat cur])
      | none => validateFrom cur rest := by
  rw [validateFrom, checkAt]
  by_cases h1 : cur.hash ≠ some (compute_hash cur)
  · simp [h1, failMsg]
  · by_cases h2 : cur.prev_hash ≠ prev.hash
    · simp [h1, h2, failMsg]
    · by_cases h3 : ¬ pyStartswith (compute_hash cur) (targetZeros cur.difficulty) = true
      · simp [h1, h2, h3, failMsg]
      · simp [h1, h2, h3]

/-- A chain tail passes the walk iff no check fails in it. -/
theorem firstFailP_none_iff (l : List Block) : ∀ prev,
    firstFailP prev l = none ↔ validateFrom prev l = (true, []) := by
  induction l with
  | nil => intro prev; simp [firstFailP, validateFrom]
  | cons cur rest ih =>
    intro prev
    rw [firstFailP, validateFrom_cons]
    cases hc : checkAt prev cur with
    | some cat =>
      show some (0, cat) = none ↔ (false, [failMsg cat cur]) = (true, [])
      simp
    | none =>
      show (firstFailP cur rest).map (fun p => (p.1 + 1, p.2)) = none ↔
        validateFrom cur rest = (true, [])
      rw [Option.map_eq_none']
      exact ih cur

/-- A positive verdict forces the exact pair `(true, [])`: the loop
prints nothing on success. -/
theorem validateFrom_fst_true (l : List Block) : ∀ prev,
    (validateFrom prev l).1 = true → validateFrom prev l = (true, []) := by
  induction l with
  | nil => intro prev _; rfl
  | cons cur rest ih =>
    intro prev h
    rw [validateFrom_cons] at h ⊢
    cases hc : checkAt prev cur with
    | some cat => rw [hc] at h; exact absurd h Bool.false_ne_true
    | none =>
      try rw [hc] at h
      try rw [hc]
      exact ih cur h

theorem prevAt_cons (prev cur : Block) (rest : List Block) (j : Nat) :
    prevAt prev (cur :: rest) (j + 1) = prevAt cur rest j := by
  cases j with
  | zero => rfl
  | succ m => simp [prevAt]

theorem prevAt_eq_getD (prev : Block) (l : List Block) (j : Nat) :
    prevAt prev l j = (prev :: l).getD j default := by
  cases j with
  | zero => rfl
  | succ m => rfl

/-- What a failure report means: the reported position is in range, its
check fails with the reported category, every earlier position passes,
and the walk returns `False` after printing exactly the one diagnostic
line for the failing block. -/
theorem firstFailP_some (l : List Block) : ∀ prev j cat,
    firstFailP prev l = some (j, cat) →
    j < l.length
    ∧ checkAt (prevAt prev l j) (l.getD j default) = some cat
    ∧ (∀ m, m < j → checkAt (prevAt prev l m) (l.getD m default) = none)
    ∧ validateFrom prev l = (false, [failMsg cat (l.getD j default)]) := by
  induction l with
  | nil => intro prev j cat h; simp [firstFailP] at h
  | cons cur rest ih =>
    intro prev j cat h
    rw [firstFailP] at h
    cases hc : checkAt prev cur with
    | some c =>
      rw [hc] at h
      have h' : (0, c) = (j, cat) := Option.some.inj h
      rw [Prod.mk.injEq] at h'
      obtain ⟨hj, hcat⟩ := h'
      subst hj; subst hcat
      refine ⟨by simp, ?_, ?_, ?_⟩
      · exact hc
      · intro m hm; omega
      · rw [validateFrom_cons, hc]
        rfl
    | none =>
      rw [hc] at h
      have h' : (firstFailP cur rest).map (fun p => (p.1 + 1, p.2)) = some (j, cat) := h
      obtain ⟨p, hp, hpe⟩ := Option.map_eq_some'.mp h'
      rw [Prod.mk.injEq] at hpe
      obtain ⟨hj, hcat⟩ := hpe
      subst hj; subst hcat
      obtain ⟨ih1, ih2, ih3, ih4⟩ := ih cur p.1 p.2 hp
      refine ⟨by simp; omega, ?_, ?_, ?_⟩
      · rw [prevAt_cons]
        exact ih2
      · intro m hm
        cases m with
        | zero => exact hc
        | succ m =>
          rw [prevAt_cons]
          exact ih3 m (by omega)
      · rw [validateFrom_cons, hc]
        exact ih4

/-- Converse of `firstFailP_some`: a failing check at `j` with all
earlier checks passing is reported as the first failure. -/
theorem firstFailP_intro (l : List Block) : ∀ prev j cat,
    j < l.length →
    checkAt (prevAt prev l j) (l.getD j default) = some cat →
    (∀ m, m < j → checkAt (prevAt prev l m) (l.getD m default) = none) →
    firstFailP prev l = some (j, cat) := by
  induction l with
  | nil => intro prev j cat hj _ _; simp at hj
  | cons cur rest ih =>
    intro prev j cat hj hcheck hall
    rw [firstFailP]
    cases j with
    | zero =>
      rw [show checkAt prev cur = some cat from hcheck]
    | succ j =>
      have h0 : checkAt prev cur = none := hall 0 (by omega)
      rw [h0]
      have hrec := ih cur j cat (by simpa using hj)
        (by rw [← prevAt_cons prev cur rest j]; exact hcheck)
        (fun m hm => by
          have := hall (m + 1) (by omega)
          rwa [prevAt_cons] at this)
      rw [hrec]
      rfl

/-- Fail-fast: the report is determined by the prefix of the walked tail
up to and including the failing position; whatever follows is never
examined. -/
theorem firstFailP_take (l : List Block) : ∀ prev j cat,
    firstFailP prev l = some (j, cat) →
    ∀ tail, firstFailP prev (l.take (j + 1) ++ tail) = some (j, cat) := by
  induction l with
  | nil => intro prev j cat h; simp [firstFailP] at h
  | cons cur rest ih =>
    intro prev j cat h tail
    rw [firstFailP] at h
    cases hc : checkAt prev cur with
    | some c =>
      rw [hc] at h
      have h' : (0, c) = (j, cat) := Option.some.inj h
      rw [Prod.mk.injEq] at h'
      obtain ⟨hj, hcat⟩ := h'
      subst hj; subst hcat
      rw [List.take_succ_cons, List.take_zero]
      show firstFailP prev (cur :: tail) = some (0, c)
      rw [firstFailP, hc]
    | none =>
      rw [hc] at h
      have h' : (firstFailP cur rest).map (fun p => (p.1 + 1, p.2)) = some (j, cat) := h
      obtain ⟨p, hp, hpe⟩ := Option.map_eq_some'.mp h'
      rw [Prod.mk.injEq] at hpe
      obtain ⟨hj, hcat⟩ := hpe
      subst hj; subst hcat
      rw [List.take_succ_cons, List.cons_append, firstFailP, hc, ih cur p.1 p.2 hp tail]
      rfl

/-- On a fully passing tail every individual check passes. -/
theorem firstFailP_none_all (l : List Block) : ∀ prev,
    firstFailP prev l = none →
    ∀ j, j < l.length → checkAt (prevAt prev l j) (l.getD j default) = none := by
  induction l with
  | nil => intro prev _ j hj; simp at hj
  | cons cur rest ih =>
    intro prev h j hj
    rw [firstFailP] at h
    cases hc : checkAt prev cur with
    | some c => rw [hc] at h; exact absurd h (by simp)
    | none =>
      rw [hc] at h
      have h' : (firstFailP cur rest).map (fun p => (p.1 + 1, p.2)) = none := h
      rw [Option.map_eq_none'] at h'
      cases j with
      | zero => exact hc
      | succ j =>
        rw [prevAt_cons]
        exact ih cur h' j (by simpa using hj)

/-- The three conditions under which one position passes, read off the
source's checks. -/
theorem checkAt_none_iff (prev cur : Block) :
    checkAt prev cur = none ↔
      cur.hash = some (compute_hash cur)
      ∧ cur.prev_hash = prev.hash
      ∧ pyStartswith (compute_hash cur) (targetZeros cur.difficulty) = true := by
  rw [checkAt]
  by_cases h1 : cur.hash ≠ some (compute_hash cur)
  · simp [h1]
  · by_cases h2 : cur.prev_hash ≠ prev.hash
    · simp [h1, h2]
    · by_cases h3 : ¬ pyStartswith (compute_hash cur) (targetZeros cur.difficulty) = true
      · simp [h1, h2, h3]
      · simp [h1, h2, h3]
        exact ⟨not_not.mp h1, not_not.mp h2, not_not.mp h3⟩

/-- A stale stored hash is reported as `hash_mismatch`, the first check. -/
theorem checkAt_hash_mismatch (prev cur : Block)
    (h : cur.hash ≠ some (compute_hash cur)) :
    checkAt prev cur = some FailCat.hash_mismatch := by
  rw [checkAt, if_pos h]

/-- Appending one block to a passing tail: the result passes iff the new
block's own check against the previous last block passes. -/
theorem firstFailP_append_one (l : List Block) : ∀ prev nb,
    firstFailP prev l = none →
    checkAt (l.getLastD prev) nb = none →
    firstFailP prev (l ++ [nb]) = none := by
  induction l with
  | nil =>
    intro prev nb _ hnb
    show firstFailP prev [nb] = none
    rw [firstFailP, show checkAt prev nb = none from hnb]
    rfl
  | cons cur rest ih =>
    intro prev nb h hnb
    rw [firstFailP] at h
    rw [List.cons_append, firstFailP]
    cases hc : checkAt prev cur with
    | some c => rw [hc] at h; exact absurd h (by simp)
    | none =>
      rw [hc] at h
      have h' : (firstFailP cur rest).map (fun p => (p.1 + 1, p.2)) = none := h
      rw [Option.map_eq_none'] at h'
      have := ih cur nb h' (by rwa [List.getLastD_cons] at hnb)
      rw [this]
      rfl

/-! ## The invariant maintained by genesis construction and `add_block` -/

/-- All chains the code ever builds satisfy this: the chain is nonempty,
the walk from position 1 finds no failure, and the last block's stored
hash matches its recomputed digest (the property `add_block` relies on
for the next link). -/
def ChainInv (bc : Blockchain) : Prop :=
  ∃ first rest, bc.chain = first :: rest
    ∧ firstFailP first rest = none
    ∧ (rest.getLastD first).hash = some (compute_hash (rest.getLastD first))

theorem blockchainInit_inv (fuel : Nat) (d : Int) (ts : String) (bc : Blockchain)
    (h : blockchainInit fuel d ts = some bc) : ChainInv bc := by
  rw [blockchainInit] at h
  obtain ⟨g, hg, hge⟩ := Option.map_eq_some'.mp h
  obtain ⟨hhash, _⟩ := mineFuel_sound fuel _ g hg
  refine ⟨g, [], ?_, rfl, ?_⟩
  · rw [← hge]
  · simpa using hhash

theorem add_block_inv (fuel : Nat) (bc bc' : Blockchain) (nb : Block)
    (hinv : ChainInv bc) (h : add_block fuel bc nb = some bc') : ChainInv bc' := by
  obtain ⟨first, rest, hchain, hff, hlast⟩ := hinv
  rw [add_block, get_latest_block, hchain, list_getLast?_cons_eq_getLastD] at h
  obtain ⟨mined, hmined, hbc'⟩ := Option.map_eq_some'.mp h
  obtain ⟨mh, mtarget, _, _, _, mprev, mdiff⟩ := mineFuel_sound fuel _ mined hmined
  refine ⟨first, rest ++ [mined], ?_, ?_, ?_⟩
  · rw [← hbc']
    rfl
  · refine firstFailP_append_one rest first mined hff ?_
    rw [checkAt_none_iff]
    exact ⟨mh, mprev, mtarget⟩
  · rw [list_getLastD_concat]
    exact mh

theorem addAll_inv (fuel : Nat) : ∀ (adds : List Block) (bc bc' : Blockchain),
    ChainInv bc → addAll fuel bc adds = some bc' → ChainInv bc' := by
  intro adds
  induction adds with
  | nil =>
    intro bc bc' hinv h
    rw [addAll] at h
    rw [← Option.some.inj h]
    exact hinv
  | cons nb rest ih =>
    intro bc bc' hinv h
    rw [addAll] at h
    cases hadd : add_block fuel bc nb with
    | none => rw [hadd] at h; exact absurd h (by simp)
    | some bc₂ =>
      rw [hadd] at h
      exact ih bc₂ bc' (add_block_inv fuel bc bc₂ nb hinv hadd) h

theorem buildChain_inv (fuel : Nat) (d : Int) (ts : String) (adds : List Block)
    (bc : Blockchain) (h : buildChain fuel d ts adds = some bc) : ChainInv bc := by
  rw [buildChain] at h
  cases hinit : blockchainInit fuel d ts with
  | none => rw [hinit] at h; exact absurd h (by simp)
  | some bc₀ =>
    rw [hinit] at h
    exact addAll_inv fuel adds bc₀ bc (blockchainInit_inv fuel d ts bc₀ hinit) h

theorem is_chain_valid_cons (bc : Blockchain) (first : Block) (rest : List Block)
    (h : bc.chain = first :: rest) : is_chain_valid bc = validateFrom first rest := by
  rw [is_chain_valid, h]

/-! ## Claim theorems -/

/-- Claim C1: Every chain built by `Blockchain(difficulty)` (genesis
construction) followed by any finite sequence of `add_block` calls, with
no external mutation of any field, passes `is_chain_valid`: the call
returns `True` and prints nothing. -/
theorem built_chain_is_valid (fuel : Nat) (d : Int) (ts : String)
    (adds : List Block) (bc : Blockchain)
    (h : buildChain fuel d ts adds = some bc) :
    is_chain_valid bc = (true, []) := by
  obtain ⟨first, rest, hchain, hff, _⟩ := buildChain_inv fuel d ts adds bc h
  rw [is_chain_valid_cons bc first rest hchain]
  exact (firstFailP_none_iff rest first).mp hff

theorem built_chain_is_valid_witness :
    is_chain_valid ((buildChain 1 0 "1700.25"
      [blockInit 1 "Transaction Data #1" (some "") 0 "1700.50"]).getD default)
      = (true, []) :=
  built_chain_is_valid 1 0 "1700.25"
    [blockInit 1 "Transaction Data #1" (some "") 0 "1700.50"] _ (by decide)

/-- Claim C2: When mining returns, the sealed record's `hash` field equals
the digest of the record's final field values (nonce included) and its
first `difficulty` hex characters are all `'0'`. -/
theorem seal_postcondition (fuel : Nat) (b b' : Block)
    (h : mineFuel fuel b = some b') :
    b'.hash = some (compute_hash b')
    ∧ pyStartswith (compute_hash b') (targetZeros b'.difficulty) = true
    ∧ (compute_hash b').data.take b'.difficulty.toNat
        = List.replicate b'.difficulty.toNat '0' := by
  obtain ⟨hh, ht, _⟩ := mineFuel_sound fuel b b' h
  refine ⟨hh, ht, ?_⟩
  have ht' : (targetZeros b'.difficulty).data.isPrefixOf (compute_hash b').data = true := ht
  have hpre := List.isPrefixOf_iff_prefix.mp ht'
  have hp := List.prefix_iff_eq_take.mp hpre
  rw [show (targetZeros b'.difficulty).data
        = List.replicate b'.difficulty.toNat '0' from rfl,
      List.length_replicate] at hp
  exact hp.symm

theorem seal_postcondition_witness :
    ((mineFuel 200 (blockInit 0 "Genesis Block" (some "0") 1 "1699.0")).getD default).hash
      = some (compute_hash ((mineFuel 200 (blockInit 0 "Genesis Block" (some "0") 1 "1699.0")).getD default))
    ∧ pyStartswith
        (compute_hash ((mineFuel 200 (blockInit 0 "Genesis Block" (some "0") 1 "1699.0")).getD default))
        (targetZeros ((mineFuel 200 (blockInit 0 "Genesis Block" (some "0") 1 "1699.0")).getD default).difficulty) = true
    ∧ (compute_hash ((mineFuel 200 (blockInit 0 "Genesis Block" (some "0") 1 "1699.0")).getD default)).data.take
        ((mineFuel 200 (blockInit 0 "Genesis Block" (some "0") 1 "1699.0")).getD default).difficulty.toNat
        = List.replicate ((mineFuel 200 (blockInit 0 "Genesis Block" (some "0") 1 "1699.0")).getD default).difficulty.toNat '0' :=
  seal_postcondition 200 (blockInit 0 "Genesis Block" (some "0") 1 "1699.0") _ (by decide)

/-- Claim C5: `add_block` sets the appended record's `prev_hash` to the
previous last record's `hash` before mining, so in every freshly built
chain each record's `prev_hash` equals its predecessor's `hash`. -/
theorem built_chain_linked (fuel : Nat) (d : Int) (ts : String)
    (adds : List Block) (bc : Blockchain)
    (h : buildChain fuel d ts adds = some bc) :
    ∀ k, 1 ≤ k → k < bc.chain.length →
      (bc.chain.getD k default).prev_hash = (bc.chain.getD (k - 1) default).hash := by
  obtain ⟨first, rest, hchain, hff, _⟩ := buildChain_inv fuel d ts adds bc h
  intro k hk1 hk2
  obtain ⟨j, rfl⟩ : ∃ j, k = j + 1 := ⟨k - 1, by omega⟩
  rw [hchain]
  have hcheck := firstFailP_none_all rest first hff j
    (by rw [hchain] at hk2; simpa using hk2)
  rw [checkAt_none_iff] at hcheck
  have hlink := hcheck.2.1
  rw [prevAt_eq_getD] at hlink
  exact hlink

theorem built_chain_linked_witness :
    (((buildChain 1 0 "1700.75"
        [blockInit 1 "Transaction Data #2" (some "") 0 "1701.00"]).getD default).chain.getD 1 default).prev_hash
    = (((buildChain 1 0 "1700.75"
        [blockInit 1 "Transaction Data #2" (some "") 0 "1701.00"]).getD default).chain.getD 0 default).hash :=
  built_chain_linked 1 0 "1700.75"
    [blockInit 1 "Transaction Data #2" (some "") 0 "1701.00"] _ (by decide)
    1 (by decide) (by decide)

/-- Claim C9: With `difficulty = 0` the target prefix is empty, so mining
accepts the very first digest: one unit of fuel suffices, the result is
the block with only its `hash` set, the nonce is unchanged (and a freshly
constructed block starts at nonce 0, so it remains 0). -/
theorem seal_difficulty_zero (b : Block) (fuel : Nat) (h : b.difficulty = 0) :
    mineFuel (fuel + 1) b = some { b with hash := some (compute_hash b) }
    ∧ mineFuel 1 b = some { b with hash := some (compute_hash b) }
    ∧ ({ b with hash := some (compute_hash b) } : Block).nonce = b.nonce
    ∧ (∀ index data ph ts, (blockInit index data ph 0 ts).nonce = 0) := by
  have htrue : pyStartswith (compute_hash b) (targetZeros b.difficulty) = true := by
    rw [h]
    rfl
  refine ⟨?_, ?_, rfl, fun _ _ _ _ => rfl⟩
  · rw [mineFuel, if_pos htrue]
  · rw [mineFuel, if_pos htrue]

theorem seal_difficulty_zero_witness :
    mineFuel 8 (blockInit 5 "payload" (some "prev") 0 "1702.0")
      = some { blockInit 5 "payload" (some "prev") 0 "1702.0" with
          hash := some (compute_hash (blockInit 5 "payload" (some "prev") 0 "1702.0")) }
    ∧ ({ blockInit 5 "payload" (some "prev") 0 "1702.0" with
          hash := some (compute_hash (blockInit 5 "payload" (some "prev") 0 "1702.0")) } : Block).nonce
        = (blockInit 5 "payload" (some "prev") 0 "1702.0").nonce :=
  ⟨(seal_difficulty_zero (blockInit 5 "payload" (some "prev") 0 "1702.0") 7 (by decide)).1,
   (seal_difficulty_zero (blockInit 5 "payload" (some "prev") 0 "1702.0") 7 (by decide)).2.2.1⟩

/-- Claim C10: A successful mining run returns the least nonce at or above
the starting nonce whose digest meets the target: the final digest
satisfies the target and every nonce from the start up to (excluding) the
final one fails it. -/
theorem seal_minimal_nonce (fuel : Nat) (b b' : Block)
    (h : mineFuel fuel b = some b') :
    b.nonce ≤ b'.nonce
    ∧ compute_hash b' = compute_hash { b with nonce := b'.nonce }
    ∧ pyStartswith (compute_hash { b with nonce := b'.nonce })
        (targetZeros b.difficulty) = true
    ∧ ∀ m, b.nonce ≤ m → m < b'.nonce →
        pyStartswith (compute_hash { b with nonce := m })
          (targetZeros b.difficulty) = false := by
  obtain ⟨n, hn, rfl, ht, hmin⟩ := mineFuel_spec fuel b b' h
  exact ⟨hn, rfl, ht, hmin⟩

theorem seal_minimal_nonce_witness :
    (blockInit 1 "x" (some "") 1 "t").nonce
      ≤ ((mineFuel 200 (blockInit 1 "x" (some "") 1 "t")).getD default).nonce
    ∧ pyStartswith
        (compute_hash { blockInit 1 "x" (some "") 1 "t" with
          nonce := ((mineFuel 200 (blockInit 1 "x" (some "") 1 "t")).getD default).nonce })
        (targetZeros 1) = true
    ∧ pyStartswith (compute_hash { blockInit 1 "x" (some "") 1 "t" with nonce := 0 })
        (targetZeros 1) = false := by
  obtain ⟨h1, _, h3, h4⟩ := seal_minimal_nonce 200 (blockInit 1 "x" (some "") 1 "t")
    ((mineFuel 200 (blockInit 1 "x" (some "") 1 "t")).getD default) (by decide)
  exact ⟨h1, h3, h4 0 (by decide) (by decide)⟩

theorem is_chain_valid_nil (bc : Blockchain) (h : bc.chain = []) :
    is_chain_valid bc = (true, []) := by
  rw [is_chain_valid, h]

/-- Claim C3: The validator walks positions `1 .. n-1` in order: the verdict
is positive exactly when no walked position fails; a failure report names
a position in `[1, n)` whose three checks (digest, then linkage, then
difficulty, in the source's order inside `checkAt`) fail there while all
earlier walked positions pass; the outcome is already determined by the
prefix up to the first failing position, whatever follows it; and a
one-element chain (a lone genesis record) is valid whatever its fields,
since position 0 is never examined. -/
theorem validator_walk (bc : Blockchain) :
    ((is_chain_valid bc).1 = true ↔ firstFailure bc.chain = none)
    ∧ (∀ b d, is_chain_valid ⟨[b], d⟩ = (true, []))
    ∧ (∀ k cat, firstFailure bc.chain = some (k, cat) →
        1 ≤ k ∧ k < bc.chain.length
        ∧ checkAt (bc.chain.getD (k - 1) default) (bc.chain.getD k default) = some cat
        ∧ (∀ j, 1 ≤ j → j < k →
            checkAt (bc.chain.getD (j - 1) default) (bc.chain.getD j default) = none)
        ∧ (∀ tail, (is_chain_valid ⟨bc.chain.take (k + 1) ++ tail,
              bc.difficulty⟩).1 = false)) := by
  refine ⟨?_, fun b d => rfl, ?_⟩
  · cases hch : bc.chain with
    | nil =>
      rw [is_chain_valid_nil bc hch]
      simp [firstFailure]
    | cons first rest =>
      rw [is_chain_valid_cons bc first rest hch, firstFailure]
      constructor
      · intro h
        rw [Option.map_eq_none']
        exact (firstFailP_none_iff rest first).mpr (validateFrom_fst_true rest first h)
      · intro h
        rw [Option.map_eq_none'] at h
        rw [(firstFailP_none_iff rest first).mp h]
  · intro k cat h
    cases hch : bc.chain with
    | nil => rw [hch] at h; simp [firstFailure] at h
    | cons first rest =>
      rw [hch, firstFailure] at h
      obtain ⟨p, hp, hpe⟩ := Option.map_eq_some'.mp h
      rw [Prod.mk.injEq] at hpe
      obtain ⟨hj, hcat⟩ := hpe
      subst hj; subst hcat
      obtain ⟨ih1, ih2, ih3, ih4⟩ := firstFailP_some rest first p.1 p.2 hp
      refine ⟨by omega, by simp; omega, ?_, ?_, ?_⟩
      · rw [prevAt_eq_getD] at ih2
        exact ih2
      · intro j hj1 hj2
        obtain ⟨m, rfl⟩ : ∃ m, j = m + 1 := ⟨j - 1, by omega⟩
        have := ih3 m (by omega)
        rw [prevAt_eq_getD] at this
        exact this
      · intro tail
        have htake := firstFailP_take rest first p.1 p.2 hp tail
        have hval := (firstFailP_some _ first p.1 p.2 htake).2.2.2
        rw [is_chain_valid_cons _ first (rest.take (p.1 + 1) ++ tail)
          (by rw [List.take_succ_cons, List.cons_append]), hval]

/-! ## Hex-output support lemmas for the digest -/

theorem be32_lt (w : Nat) : ∀ x ∈ be32 w, x < 256 := by
  intro x hx
  simp [be32] at hx
  rcases hx with rfl | rfl | rfl | rfl <;> omega

theorem digestBytes_length (st : SHState) : (digestBytes st).length = 32 := by
  simp [digestBytes, be32]

theorem digestBytes_lt (st : SHState) : ∀ x ∈ digestBytes st, x < 256 := by
  intro x hx
  rw [digestBytes] at hx
  simp only [List.mem_append] at hx
  rcases hx with ((((((h | h) | h) | h) | h) | h) | h) | h <;> exact be32_lt _ x h

theorem sha256bytes_length (msg : List Nat) : (sha256bytes msg).length = 32 :=
  digestBytes_length _

theorem sha256bytes_lt (msg : List Nat) : ∀ x ∈ sha256bytes msg, x < 256 :=
  digestBytes_lt _

theorem bytesToHex_length : ∀ l : List Nat, (bytesToHex l).length = 2 * l.length := by
  intro l
  induction l with
  | nil => rfl
  | cons b rest ih =>
    rw [bytesToHex]
    simp [ih]
    omega

theorem hexDigit_mem (n : Nat) (h : n < 16) :
    hexDigit n ∈ ("0123456789abcdef").data := by
  interval_cases n <;> decide

theorem bytesToHex_mem : ∀ (l : List Nat), (∀ x ∈ l, x < 256) →
    ∀ c ∈ bytesToHex l, c ∈ ("0123456789abcdef").data := by
  intro l
  induction l with
  | nil => intro _ c hc; simp [bytesToHex] at hc
  | cons b rest ih =>
    intro hb c hc
    rw [bytesToHex] at hc
    rcases List.mem_cons.mp hc with rfl | hc'
    · exact hexDigit_mem _ (by have := hb b (by simp); omega)
    · rcases List.mem_cons.mp hc' with rfl | hc''
      · exact hexDigit_mem _ (by have := hb b (by simp); omega)
      · exact ih (fun x hx => hb x (by simp [hx])) c hc''

/-- Claim C4: The digest of a block is obtained by concatenating, in this
fixed order, the decimal/text renderings of `index`, `timestamp`, `data`
(payload), `prev_hash` and `nonce`, encoding the result as UTF-8 bytes,
hashing with SHA-256 and rendering the 32 digest bytes as 64 lowercase
hexadecimal characters. -/
theorem compute_hash_canonical (b : Block) :
    compute_hash b = sha256hex (blockString b)
    ∧ blockString b = toString b.index ++ b.timestamp ++ b.data
        ++ pyStr b.prev_hash ++ toString b.nonce
    ∧ (compute_hash b).data = bytesToHex (sha256bytes (utf8Encode (blockString b).data))
    ∧ (compute_hash b).length = 64
    ∧ ∀ c ∈ (compute_hash b).data, c ∈ ("0123456789abcdef").data := by
  refine ⟨rfl, rfl, rfl, ?_, ?_⟩
  · show (bytesToHex (sha256bytes (utf8Encode (blockString b).data))).length = 64
    rw [bytesToHex_length, sha256bytes_length]
  · intro c hc
    exact bytesToHex_mem _ (sha256bytes_lt _) c hc

theorem validator_walk_witness :
    is_chain_valid ⟨[(⟨0, "900.0", "Genesis Block", some "0", 0, 0, some "gg"⟩ : Block)], 5⟩
      = (true, [])
    ∧ checkAt (⟨0, "900.0", "Genesis Block", some "0", 0, 0, some "gg"⟩ : Block)
        (⟨1, "901.0", "Payload A", some "gg", 0, 0, some "stale"⟩ : Block)
      = some FailCat.hash_mismatch
    ∧ (is_chain_valid ⟨[(⟨0, "900.0", "Genesis Block", some "0", 0, 0, some "gg"⟩ : Block),
        ⟨1, "901.0", "Payload A", some "gg", 0, 0, some "stale"⟩].take 2
        ++ [(⟨0, "900.0", "Genesis Block", some "0", 0, 0, some "gg"⟩ : Block)], 0⟩).1
      = false := by
  obtain ⟨-, h2, h3⟩ := validator_walk
    ⟨[⟨0, "900.0", "Genesis Block", some "0", 0, 0, some "gg"⟩,
      ⟨1, "901.0", "Payload A", some "gg", 0, 0, some "stale"⟩], 0⟩
  obtain ⟨-, -, hcheck, -, htail⟩ := h3 1 FailCat.hash_mismatch (by decide)
  exact ⟨h2 _ 5, hcheck,
    htail [⟨0, "900.0", "Genesis Block", some "0", 0, 0, some "gg"⟩]⟩

theorem compute_hash_canonical_witness :
    (compute_hash (blockInit 2 "Hello" (some "00") 3 "1703.5")).length = 64
    ∧ '7' ∈ ("0123456789abcdef").data :=
  ⟨(compute_hash_canonical (blockInit 2 "Hello" (some "00") 3 "1703.5")).2.2.2.1,
   (compute_hash_canonical (blockInit 2 "Hello" (some "00") 3 "1703.5")).2.2.2.2
     '7' (by decide)⟩

theorem list_set_cons_succ (x : Block) (l : List Block) (j : Nat) (a : Block) :
    (x :: l).set (j + 1) a = x :: l.set j a := rfl

theorem prevAt_set_same (prev : Block) (l : List Block) (j : Nat) (a : Block) :
    prevAt prev (l.set j a) j = prevAt prev l j := by
  cases j with
  | zero => rfl
  | succ m =>
    simp only [prevAt, Nat.succ_ne_zero, if_false, Nat.add_sub_cancel]
    exact list_getD_set_ne default l (m + 1) m a (by omega)

/-- Claim C6: Mutating the payload of the record at position `k ≥ 1` of a
valid chain after sealing, without re-mining — so that the recomputed
digest differs from the sealed one — makes the validator return `False`
with the first failure at position `k` in category `hash_mismatch`,
printing the hash-mismatch line for that record. -/
theorem payload_mutation_detected (bc : Blockchain) (k : Nat) (newData : String)
    (hvalid : (is_chain_valid bc).1 = true)
    (hk1 : 1 ≤ k) (hk2 : k < bc.chain.length)
    (hdiff : compute_hash { bc.chain.getD k default with data := newData }
      ≠ compute_hash (bc.chain.getD k default)) :
    (is_chain_valid ⟨bc.chain.set k { bc.chain.getD k default with data := newData },
        bc.difficulty⟩).1 = false
    ∧ firstFailure (bc.chain.set k { bc.chain.getD k default with data := newData })
        = some (k, FailCat.hash_mismatch)
    ∧ (is_chain_valid ⟨bc.chain.set k { bc.chain.getD k default with data := newData },
        bc.difficulty⟩).2
        = ["Block #" ++ toString (bc.chain.getD k default).index ++ " hash mismatch!"] := by
  obtain ⟨first, rest, hch⟩ : ∃ first rest, bc.chain = first :: rest := by
    cases hcc : bc.chain with
    | nil => rw [hcc] at hk2; simp at hk2
    | cons a l => exact ⟨a, l, rfl⟩
  obtain ⟨j, rfl⟩ : ∃ j, k = j + 1 := ⟨k - 1, by omega⟩
  rw [hch] at hk2 hdiff ⊢
  have hjlen : j < rest.length := by simpa using hk2
  have hval' : validateFrom first rest = (true, []) :=
    validateFrom_fst_true rest first
      (by rwa [is_chain_valid_cons bc first rest hch] at hvalid)
  have hall := firstFailP_none_all rest first
    ((firstFailP_none_iff rest first).mpr hval')
  have hold : (rest.getD j default).hash = some (compute_hash (rest.getD j default)) :=
    ((checkAt_none_iff _ _).mp (hall j hjlen)).1
  have hnbhash :
      ({ rest.getD j default with data := newData } : Block).hash
        ≠ some (compute_hash ({ rest.getD j default with data := newData } : Block)) := by
    show (rest.getD j default).hash
      ≠ some (compute_hash ({ rest.getD j default with data := newData } : Block))
    rw [hold]
    intro heq
    exact hdiff (Option.some.inj heq).symm
  have hcheckj :
      checkAt (prevAt first (rest.set j { rest.getD j default with data := newData }) j)
        ((rest.set j { rest.getD j default with data := newData }).getD j default)
        = some FailCat.hash_mismatch := by
    rw [list_getD_set_self default rest j _ hjlen]
    exact checkAt_hash_mismatch _ _ hnbhash
  have hearlier : ∀ m, m < j →
      checkAt (prevAt first (rest.set j { rest.getD j default with data := newData }) m)
        ((rest.set j { rest.getD j default with data := newData }).getD m default)
        = none := by
    intro m hm
    have hgm : (rest.set j { rest.getD j default with data := newData }).getD m default
        = rest.getD m default :=
      list_getD_set_ne default rest j m _ (by omega)
    have hpm : prevAt first (rest.set j { rest.getD j default with data := newData }) m
        = prevAt first rest m := by
      cases m with
      | zero => rfl
      | succ m' =>
        simp only [prevAt, Nat.succ_ne_zero, if_false, Nat.add_sub_cancel]
        exact list_getD_set_ne default rest j m' _ (by omega)
    rw [hgm, hpm]
    exact hall m (by omega)
  have hint : firstFailP first (rest.set j { rest.getD j default with data := newData })
      = some (j, FailCat.hash_mismatch) :=
    firstFailP_intro _ first j _ (by rw [List.length_set]; exact hjlen) hcheckj hearlier
  obtain ⟨-, -, -, hvalbad⟩ := firstFailP_some _ first j FailCat.hash_mismatch hint
  have hmsg : failMsg FailCat.hash_mismatch
      ((rest.set j { rest.getD j default with data := newData }).getD j default)
      = "Block #" ++ toString ((first :: rest).getD (j + 1) default).index
        ++ " hash mismatch!" := by
    rw [list_getD_set_self default rest j _ hjlen]
    rfl
  refine ⟨?_, ?_, ?_⟩
  · rw [is_chain_valid_cons _ first (rest.set j { rest.getD j default with data := newData })
      rfl, hvalbad]
  · rw [show ((first :: rest).set (j + 1)
      { (first :: rest).getD (j + 1) default with data := newData })
      = first :: rest.set j { rest.getD j default with data := newData } from rfl,
      firstFailure, hint]
    rfl
  · rw [is_chain_valid_cons _ first (rest.set j { rest.getD j default with data := newData })
      rfl, hvalbad]
    rw [show (((false, [failMsg FailCat.hash_mismatch
      ((rest.set j { rest.getD j default with data := newData }).getD j default)]) :
        Bool × List String)).2
      = [failMsg FailCat.hash_mismatch
        ((rest.set j { rest.getD j default with data := newData }).getD j default)] from rfl,
      hmsg]

theorem payload_mutation_detected_witness :
    (is_chain_valid ⟨((buildChain 1 0 "800.0"
        [blockInit 1 "Data X" (some "") 0 "800.5"]).getD default).chain.set 1
          { ((buildChain 1 0 "800.0"
            [blockInit 1 "Data X" (some "") 0 "800.5"]).getD default).chain.getD 1 default
            with data := "Tampered" },
        ((buildChain 1 0 "800.0"
          [blockInit 1 "Data X" (some "") 0 "800.5"]).getD default).difficulty⟩).1 = false
    ∧ firstFailure (((buildChain 1 0 "800.0"
        [blockInit 1 "Data X" (some "") 0 "800.5"]).getD default).chain.set 1
          { ((buildChain 1 0 "800.0"
            [blockInit 1 "Data X" (some "") 0 "800.5"]).getD default).chain.getD 1 default
            with data := "Tampered" })
        = some (1, FailCat.hash_mismatch) := by
  obtain ⟨h1, h2, -⟩ := payload_mutation_detected
    ((buildChain 1 0 "800.0" [blockInit 1 "Data X" (some "") 0 "800.5"]).getD default)
    1 "Tampered" (by decide) (by decide) (by decide) (by decide)
  exact ⟨h1, h2⟩

/-- The validator interface the spec describes (`is_valid(chain) ->
(bool, optional hash-index/category record)`), stated from the spec's
words for comparison with the source's `is_chain_valid`: a boolean
verdict paired with the first offending index and its failure
category. -/
def is_valid_specified (bc : Blockchain) : Bool × Option (Nat × FailCat) :=
  match firstFailure bc.chain with
  | none => (true, none)
  | some p => (false, some p)

/-- Claim C7, counterexample: On a concrete corrupted two-block chain the
code's `is_chain_valid` returns the bare boolean `false` — the only
structure accompanying it is the printed console line — whereas the
interface the claim describes would return the pair
`(false, some (1, hash_mismatch))`.  The structured diagnostic is not
part of the code's return value. -/
theorem is_valid_return_shape_counterexample :
    is_chain_valid ⟨[⟨0, "700.0", "Genesis Block", some "0", 0, 0, some "aa"⟩,
        ⟨1, "701.0", "Payload B", some "aa", 0, 0, some "bb"⟩], 0⟩
      = (false, ["Block #1 hash mismatch!"])
    ∧ is_valid_specified ⟨[⟨0, "700.0", "Genesis Block", some "0", 0, 0, some "aa"⟩,
        ⟨1, "701.0", "Payload B", some "aa", 0, 0, some "bb"⟩], 0⟩
      = (false, some (1, FailCat.hash_mismatch)) := by
  decide

/-- Claim C7, amended: `is_chain_valid` returns a plain boolean and raises
no exception; its verdict agrees with the spec-described interface, and
on failure it prints exactly one line, determined by the first offending
index and its category (`hash_mismatch`, `link_mismatch` or
`difficulty_unmet`) exactly as the structured diagnostic would be — but
the `(index, category)` pair itself is not part of the return value. -/
theorem is_valid_diagnostics (bc : Blockchain) :
    (is_valid_specified bc).1 = (is_chain_valid bc).1
    ∧ (firstFailure bc.chain = none → is_chain_valid bc = (true, []))
    ∧ (∀ k cat, firstFailure bc.chain = some (k, cat) →
        is_chain_valid bc = (false, [failMsg cat (bc.chain.getD k default)])) := by
  refine ⟨?_, ?_, ?_⟩
  · rw [is_valid_specified]
    cases hff : firstFailure bc.chain with
    | none =>
      cases hch : bc.chain with
      | nil => rw [is_chain_valid_nil bc hch]
      | cons first rest =>
        rw [hch, firstFailure, Option.map_eq_none'] at hff
        rw [is_chain_valid_cons bc first rest hch,
          (firstFailP_none_iff rest first).mp hff]
    | some p =>
      cases hch : bc.chain with
      | nil => rw [hch] at hff; simp [firstFailure] at hff
      | cons first rest =>
        rw [hch, firstFailure] at hff
        obtain ⟨q, hq, -⟩ := Option.map_eq_some'.mp hff
        obtain ⟨-, -, -, hvb⟩ := firstFailP_some rest first q.1 q.2 hq
        rw [is_chain_valid_cons bc first rest hch, hvb]
  · intro hff
    cases hch : bc.chain with
    | nil => exact is_chain_valid_nil bc hch
    | cons first rest =>
      rw [hch, firstFailure, Option.map_eq_none'] at hff
      rw [is_chain_valid_cons bc first rest hch]
      exact (firstFailP_none_iff rest first).mp hff
  · intro k cat hff
    cases hch : bc.chain with
    | nil => rw [hch] at hff; simp [firstFailure] at hff
    | cons first rest =>
      rw [hch, firstFailure] at hff
      obtain ⟨q, hq, hqe⟩ := Option.map_eq_some'.mp hff
      rw [Prod.mk.injEq] at hqe
      obtain ⟨hk, hcat⟩ := hqe
      subst hk; subst hcat
      obtain ⟨-, -, -, hvb⟩ := firstFailP_some rest first q.1 q.2 hq
      rw [is_chain_valid_cons bc first rest hch, hvb]
      rfl

theorem is_valid_diagnostics_witness :
    is_chain_valid ⟨[⟨0, "702.0", "Genesis Block", some "0", 0, 0, some "cc"⟩,
        ⟨1, "703.0", "Payload C", some "cc", 0, 0, some "dd"⟩], 0⟩
      = (false, [failMsg FailCat.hash_mismatch
          ((([⟨0, "702.0", "Genesis Block", some "0", 0, 0, some "cc"⟩,
            ⟨1, "703.0", "Payload C", some "cc", 0, 0, some "dd"⟩] : List Block)).getD 1 default)]) :=
  (is_valid_diagnostics ⟨[⟨0, "702.0", "Genesis Block", some "0", 0, 0, some "cc"⟩,
      ⟨1, "703.0", "Payload C", some "cc", 0, 0, some "dd"⟩], 0⟩).2.2
    1 FailCat.hash_mismatch (by decide)

/-- Claim C8, counterexample: Constructing a record with a negative
difficulty and an empty payload does not fail: `Block.__init__` performs
no input validation and stores the malformed values as given, and the
resulting record even mines successfully on the first attempt (a
negative difficulty yields an empty `'0' * difficulty` target). -/
theorem init_validation_counterexample :
    blockInit 1 "" (some "") (-1) "600.0"
      = { index := 1, timestamp := "600.0", data := "", prev_hash := some "",
          nonce := 0, difficulty := -1, hash := none }
    ∧ mineFuel 1 (blockInit 1 "" (some "") (-1) "600.0")
      = some { blockInit 1 "" (some "") (-1) "600.0" with
          hash := some (compute_hash (blockInit 1 "" (some "") (-1) "600.0")) } := by
  decide

/-- Claim C8, amended: `Block.__init__` performs no input validation: it
stores every argument exactly as given — a negative difficulty or an
empty payload included — sets `nonce = 0` and `hash = None`, and signals
no error.  A non-positive difficulty simply behaves as an empty mining
target: the block seals on the first attempt. -/
theorem blockInit_no_validation (index : Int) (data : String) (ph : Option String)
    (d : Int) (ts : String) :
    blockInit index data ph d ts
      = { index := index, timestamp := ts, data := data, prev_hash := ph,
          nonce := 0, difficulty := d, hash := none }
    ∧ (d ≤ 0 → targetZeros d = ""
        ∧ mineFuel 1 (blockInit index data ph d ts)
          = some { blockInit index data ph d ts with
              hash := some (compute_hash (blockInit index data ph d ts)) }) := by
  refine ⟨rfl, fun hd => ?_⟩
  have hzeros : targetZeros d = "" := by
    rw [targetZeros, Int.toNat_eq_zero.mpr hd]
    rfl
  refine ⟨hzeros, ?_⟩
  have htrue : pyStartswith (compute_hash (blockInit index data ph d ts))
      (targetZeros (blockInit index data ph d ts).difficulty) = true := by
    show pyStartswith (compute_hash (blockInit index data ph d ts)) (targetZeros d) = true
    rw [hzeros]
    rfl
  rw [mineFuel, if_pos htrue]

theorem blockInit_no_validation_witness :
    blockInit 7 "p" (some "q") (-2) "601.0"
      = { index := 7, timestamp := "601.0", data := "p", prev_hash := some "q",
          nonce := 0, difficulty := -2, hash := none }
    ∧ targetZeros (-2) = "" :=
  ⟨(blockInit_no_validation 7 "p" (some "q") (-2) "601.0").1,
   ((blockInit_no_validation 7 "p" (some "q") (-2) "601.0").2 (by decide)).1⟩
